import Mathlib

/-!
Verification of the Ballista scheduler core (executor slot ledger, heartbeat
cache, liveness, executor-side task cancellation and the scheduler RPC error
paths) against its natural-language specification.

The key/value backend keyspaces that matter here (`Slots`, `Heartbeats`,
`Executors` and the executor's abort-handle map) are modelled as association
lists with first-occurrence lookup: `storeGet` is the backend `get`/map lookup,
`storePut` the overwriting `put`/insert, `eraseKey` the map `remove`, and
`applyTxn` the transactional multi-put `put_txn` (a sequence of overwrites
applied atomically at the end of the critical section, exactly as the source
defers all ledger writes to a single `put_txn` under the `Slots` lock).
-/

namespace Ballista

/-- First-occurrence lookup in an association list; models `StateBackendClient::get`
on a keyspace as well as `HashMap` lookup. -/
def storeGet {κ : Type} {α : Type} [DecidableEq κ] : List (κ × α) → κ → Option α
  | [], _ => none
  | p :: rest, k => if p.1 = k then some p.2 else storeGet rest k

/-- Overwriting insert: replaces the value at the first occurrence of the key, or
appends the binding if the key is absent. Models `put` / `HashMap::insert`. -/
def storePut {κ : Type} {α : Type} [DecidableEq κ] : List (κ × α) → κ → α → List (κ × α)
  | [], k, v => [(k, v)]
  | p :: rest, k, v => if p.1 = k then (k, v) :: rest else p :: storePut rest k v

/-- Remove every binding of the key. Models `HashMap::remove`. -/
def eraseKey {κ : Type} {α : Type} [DecidableEq κ] : List (κ × α) → κ → List (κ × α)
  | [], _ => []
  | p :: rest, k => if p.1 = k then eraseKey rest k else p :: eraseKey rest k

/-- Apply a list of writes in order; models `put_txn` (atomic multi-put). -/
def applyTxn {κ : Type} {α : Type} [DecidableEq κ]
    (store : List (κ × α)) (ops : List (κ × α)) : List (κ × α) :=
  ops.foldl (fun st p => storePut st p.1 p.2) store

/-- Error kind surfaced by the modelled backend paths. The source returns a
`BallistaError` whose message is irrelevant here; `decodeError` models the
failure of `decode_into` when `get` returned empty bytes (key absent);
`eventLoopError` a failed `get_sender` on the event loop. -/
inductive StorageErr : Type
  | decodeError : StorageErr
  | eventLoopError : StorageErr
deriving DecidableEq

/-- Per-executor mutable slot ledger (`ExecutorData` in
`ballista_core::serde::scheduler`): total and currently available task slots. -/
structure ExecutorData where
  executor_id : String
  total_task_slots : Nat
  available_task_slots : Nat
deriving DecidableEq

/-- A reserved task slot (`ExecutorReservation` in
`scheduler/src/state/executor_manager.rs`): the executor it is bound to and an
optional job assignment. -/
structure ExecutorReservation where
  executor_id : String
  job_id : Option String
deriving DecidableEq

def ExecutorReservation.new_free (executor_id : String) : ExecutorReservation :=
  { executor_id := executor_id, job_id := none }

def ExecutorReservation.new_assigned (executor_id : String) (job_id : String) :
    ExecutorReservation :=
  { executor_id := executor_id, job_id := some job_id }

def ExecutorReservation.assign (r : ExecutorReservation) (job_id : String) :
    ExecutorReservation :=
  { r with job_id := some job_id }

def ExecutorReservation.assigned (r : ExecutorReservation) : Bool :=
  r.job_id.isSome

/-- The `Slots` keyspace: executor id to slot ledger. -/
abbrev SlotStore := List (String × ExecutorData)

/-- Available slots recorded for an executor id (0 when no ledger is stored). -/
def availD (store : SlotStore) (k : String) : Nat :=
  match storeGet store k with
  | some d => d.available_task_slots
  | none => 0

/-- Sum of available slots over a list of executor ids. -/
def sumAvail (store : SlotStore) (ids : List String) : Nat :=
  (ids.map (availD store)).sum

/-- The loop body of `ExecutorManager::reserve_slots`: iterate the alive
executors in order, read each ledger from the (unmodified) store, take
`min available desired` slots as free reservations, record the decremented
ledger as a pending `put_txn` write, and break as soon as the demand is met.
A missing ledger makes `decode_into` fail, aborting the whole call before any
write. Returns the reservations and the pending transaction ops. -/
def reserveLoop (store : SlotStore) : List String → Nat →
    Except StorageErr (List ExecutorReservation × List (String × ExecutorData))
  | [], _ => .ok ([], [])
  | executor_id :: rest, desired =>
    match storeGet store executor_id with
    | none => .error .decodeError
    | some data =>
      let take := min data.available_task_slots desired
      let newData : ExecutorData :=
        { data with available_task_slots := data.available_task_slots - take }
      let res := List.replicate take (ExecutorReservation.new_free executor_id)
      if desired - take = 0 then
        .ok (res, [(executor_id, newData)])
      else
        match reserveLoop store rest (desired - take) with
        | .error e => .error e
        | .ok (res2, ops2) => .ok (res ++ res2, (executor_id, newData) :: ops2)

/-- `ExecutorManager::reserve_slots` under the global `Slots` lock: run the
reservation loop over the alive executors (in iteration order) against the
current store, then apply all recorded writes in one transaction. On error no
write happens (the `put_txn` is never reached). -/
def reserve_slots (store : SlotStore) (alive : List String) (n : Nat) :
    Except StorageErr (List ExecutorReservation × SlotStore) :=
  match reserveLoop store alive n with
  | .error e => .error e
  | .ok (res, ops) => .ok (res, applyTxn store ops)

/-- The loop body of `ExecutorManager::cancel_reservations`: fold the
reservations into the `executor_slots` map (modelled as an insertion-ordered
association list), incrementing `available_task_slots` once per reservation;
the first reservation for an executor reads its ledger from the store, later
ones update the in-map entry, so each executor gets exactly one final write. -/
def cancelLoop (store : SlotStore) : List ExecutorReservation →
    List (String × ExecutorData) → Except StorageErr (List (String × ExecutorData))
  | [], acc => .ok acc
  | r :: rest, acc =>
    match storeGet acc r.executor_id with
    | some data =>
      cancelLoop store rest
        (storePut acc r.executor_id
          { data with available_task_slots := data.available_task_slots + 1 })
    | none =>
      match storeGet store r.executor_id with
      | none => .error .decodeError
      | some data =>
        cancelLoop store rest
          (acc ++ [(r.executor_id,
            { data with available_task_slots := data.available_task_slots + 1 })])

/-- `ExecutorManager::cancel_reservations` under the global `Slots` lock:
coalesce the reservations per executor, then write every updated ledger in a
single transaction; on error nothing is written. -/
def cancel_reservations (store : SlotStore) (reservations : List ExecutorReservation) :
    Except StorageErr SlotStore :=
  match cancelLoop store reservations [] with
  | .error e => .error e
  | .ok ops => .ok (applyTxn store ops)

/-- Number of reservations in a list that name a given executor. -/
def reservation_count (reservations : List ExecutorReservation) (k : String) : Nat :=
  reservations.countP (fun r => r.executor_id = k)

/-- The `Slots` keyspace as left behind by a `cancel_reservations` call: the
transactional result on success, the untouched store on error (all reads
precede the single `put_txn`, so a failing call writes nothing). -/
def cancel_reservations_run (store : SlotStore)
    (reservations : List ExecutorReservation) : SlotStore :=
  match cancel_reservations store reservations with
  | .ok store2 => store2
  | .error _ => store

/-- `ExecutorManager::register_executor`, restricted to its effect on the
`Slots` keyspace and its return value (the connectivity ping and the metadata
and heartbeat puts precede this and do not touch the ledger). With
`reserve = false` the specification is stored as is; with `reserve = true`
one free reservation per `available_task_slots` is returned, bound to this
executor, and the ledger is stored with `available_task_slots = 0`. -/
def register_executor (store : SlotStore) (executor_id : String)
    (specification : ExecutorData) (reserve : Bool) :
    List ExecutorReservation × SlotStore :=
  if !reserve then
    ([], storePut store executor_id specification)
  else
    (List.replicate specification.available_task_slots
        (ExecutorReservation.new_free executor_id),
      storePut store executor_id { specification with available_task_slots := 0 })

/-- Executor heartbeat (`protobuf::ExecutorHeartbeat`): executor id, unix-seconds
timestamp and an opaque optional state. -/
structure ExecutorHeartbeat where
  executor_id : String
  timestamp : Nat
  hbState : Option Nat
deriving DecidableEq

/-- The in-memory heartbeat cache (`executors_heartbeat`): executor id to the
most recently inserted heartbeat. -/
abbrev HeartbeatCache := List (String × ExecutorHeartbeat)

/-- A mutation of the heartbeat cache: either a `save_executor_heartbeat` call
(which also puts the heartbeat into the `Heartbeats` keyspace) or a `Put`
watch event consumed by the `ExecutorHeartbeatListener`. -/
inductive HeartbeatEvent : Type
  | save : ExecutorHeartbeat → HeartbeatEvent
  | watchPut : ExecutorHeartbeat → HeartbeatEvent
deriving DecidableEq

def HeartbeatEvent.heartbeat : HeartbeatEvent → ExecutorHeartbeat
  | .save hb => hb
  | .watchPut hb => hb

/-- Both the save path and the listener do an unconditional
`executors_heartbeat.insert(executor_id, heartbeat)`. -/
def apply_heartbeat (cache : HeartbeatCache) (hb : ExecutorHeartbeat) : HeartbeatCache :=
  storePut cache hb.executor_id hb

/-- Apply a sequence of heartbeat-cache mutations in order. -/
def apply_heartbeat_events (cache : HeartbeatCache) (events : List HeartbeatEvent) :
    HeartbeatCache :=
  events.foldl (fun c ev => apply_heartbeat c ev.heartbeat) cache

/-- `ExecutorManager::get_alive_executors`: the executor ids whose cached
heartbeat timestamp is strictly greater than the threshold. -/
def get_alive_executors (cache : HeartbeatCache) (last_seen_ts_threshold : Nat) :
    List String :=
  cache.filterMap (fun p =>
    if last_seen_ts_threshold < p.2.timestamp then some p.1 else none)

/-- `ExecutorManager::get_alive_executors_within_one_minute`: threshold is
`now - 60` seconds, saturating at zero (`checked_sub ... unwrap_or(0)`). -/
def get_alive_executors_within_one_minute (cache : HeartbeatCache) (now : Nat) :
    List String :=
  get_alive_executors cache (now - 60)

/-- `ExecutorManager::reserve_slots` as actually invoked: the alive set is
computed from the heartbeat cache with the one-minute window. The iteration
order of the alive `HashSet` is unspecified in the source; this model fixes it
to cache order, while `reserve_slots` itself is proved for an arbitrary order. -/
def manager_reserve_slots (cache : HeartbeatCache) (now : Nat) (store : SlotStore)
    (n : Nat) : Except StorageErr (List ExecutorReservation × SlotStore) :=
  reserve_slots store (get_alive_executors_within_one_minute cache now) n

/-- An executor's advertised free slots, as consumed by the
`ClusterState` reservation helpers (`protobuf::AvailableTaskSlots`). -/
structure AvailableTaskSlots where
  executor_id : String
  slots : Nat
deriving DecidableEq

/-- `reserve_slots_round_robin` from `scheduler/src/cluster/mod.rs`: a single
pass over the iterator of available slots, taking at most one slot per
executor, stopping when `n` slots are taken or the iterator is exhausted.
Returns the reservations and the (mutated in place in the source) slot list. -/
def reserve_slots_round_robin :
    List AvailableTaskSlots → Nat → List ExecutorReservation × List AvailableTaskSlots
  | [], _ => ([], [])
  | executor :: rest, n =>
    if n = 0 then ([], executor :: rest)
    else if 0 < executor.slots then
      let next := reserve_slots_round_robin rest (n - 1)
      (ExecutorReservation.new_free executor.executor_id :: next.1,
        { executor with slots := executor.slots - 1 } :: next.2)
    else
      let next := reserve_slots_round_robin rest n
      (next.1, executor :: next.2)

/-- `reserve_slots_bias` from `scheduler/src/cluster/mod.rs`: fill one
executor's free slots completely before moving to the next. -/
def reserve_slots_bias :
    List AvailableTaskSlots → Nat → List ExecutorReservation × List AvailableTaskSlots
  | [], _ => ([], [])
  | executor :: rest, n =>
    if n = 0 then ([], executor :: rest)
    else
      let take := min executor.slots n
      let next := reserve_slots_bias rest (n - take)
      (List.replicate take (ExecutorReservation.new_free executor.executor_id) ++ next.1,
        { executor with slots := executor.slots - take } :: next.2)

/-- Key of the executor's abort-handle map: `(job_id, stage_id, partition)`. -/
abbrev TaskKey := String × Nat × Nat

/-- The executor's `abort_handles` map; the `AbortHandle` itself is opaque and
modelled by a numeric identity. -/
abbrev AbortHandles := List (TaskKey × Nat)

/-- `Executor::cancel_task`: remove the abort handle for
`(job_id, stage_id, partition)` if present; when found, abort it (the aborted
handle is the third component) and return `true`, otherwise return `false`
leaving the map unchanged. -/
def cancel_task (handles : AbortHandles) (job_id : String) (stage_id : Nat)
    (partition : Nat) : Bool × AbortHandles × Option Nat :=
  match storeGet handles (job_id, stage_id, partition) with
  | some h => (true, eraseKey handles (job_id, stage_id, partition), some h)
  | none => (false, handles, none)

/-- The registration step of `Executor::execute_shuffle_write`: after wrapping
the execution future in an abortable pair, the handle is inserted under the
task's key. -/
def register_abort_handle (handles : AbortHandles) (key : TaskKey) (handle : Nat) :
    AbortHandles :=
  storePut handles key handle

/-- The completion step of `Executor::execute_shuffle_write`: after the task
future resolves, its abort handle is removed from the map. -/
def finish_shuffle_write (handles : AbortHandles) (key : TaskKey) : AbortHandles :=
  eraseKey handles key

/-- `TaskSchedulingPolicy` from `ballista_core::config`. -/
inductive TaskSchedulingPolicy : Type
  | pullStaged : TaskSchedulingPolicy
  | pushStaged : TaskSchedulingPolicy
deriving DecidableEq

/-- The tonic wire status codes produced by the scheduler RPC handlers. -/
inductive WireCode : Type
  | invalidArgument : WireCode
  | failedPrecondition : WireCode
  | internalError : WireCode
  | unimplemented : WireCode
deriving DecidableEq

/-- `ExecutorSpecification`: total task slots advertised at registration. -/
structure ExecutorSpecification where
  task_slots : Nat
deriving DecidableEq

/-- Wire-side executor registration metadata (`protobuf::ExecutorRegistration`). -/
structure ExecutorRegistration where
  id : String
  optional_host : Option String
  port : Nat
  grpc_port : Nat
  specification : Option ExecutorSpecification
deriving DecidableEq

/-- Scheduler-side executor metadata (`ExecutorMetadata`). -/
structure ExecutorMetadata where
  id : String
  host : String
  port : Nat
  grpc_port : Nat
  specification : ExecutorSpecification
deriving DecidableEq

/-- A task status report from an executor; its payload is irrelevant to the
claims and kept opaque. -/
structure TaskStatus where
  task_id : Nat
deriving DecidableEq

/-- `PollWorkParams`: the pull-mode work request. -/
structure PollWorkParams where
  metadata : Option ExecutorRegistration
  can_accept_task : Bool
  task_status : List TaskStatus
deriving DecidableEq

/-- The executor state the `poll_work` handler persists: the `Executors`
keyspace and the `Heartbeats` keyspace together with the in-memory cache
(`save_executor_heartbeat` writes the latter two in lockstep). -/
structure SchedulerPersistedState where
  executors : List (String × ExecutorMetadata)
  heartbeats : HeartbeatCache
deriving DecidableEq

/-- `SchedulerGrpc::poll_work`. In order: reject with `failed_precondition`
when the scheduler uses push-based scheduling; reject with `invalid_argument`
when the request carries no executor metadata; otherwise persist metadata and
a fresh heartbeat, apply the reported task statuses (`updateOk` abstracts
whether that internal step succeeds) and, when the executor can accept a task,
offer one selected by the task manager (abstracted by `fill`, since the task
manager is outside the modelled sources). `none` models a handler panic on a
malformed request (missing specification, unknown remote address). -/
def poll_work (policy : TaskSchedulingPolicy) (fill : String → Option Nat)
    (updateOk : Bool) (st : SchedulerPersistedState) (remote_addr : Option String)
    (now : Nat) (params : PollWorkParams) :
    Option (SchedulerPersistedState × Except WireCode (Option Nat)) :=
  if policy = .pushStaged then
    some (st, .error .failedPrecondition)
  else
    match params.metadata with
    | none => some (st, .error .invalidArgument)
    | some m =>
      match m.specification, m.optional_host.or remote_addr with
      | some spec, some host =>
        let metadata : ExecutorMetadata :=
          { id := m.id, host := host, port := m.port, grpc_port := m.grpc_port,
            specification := spec }
        let heartbeat : ExecutorHeartbeat :=
          { executor_id := m.id, timestamp := now, hbState := none }
        let st2 : SchedulerPersistedState :=
          { executors := storePut st.executors m.id metadata,
            heartbeats := apply_heartbeat st.heartbeats heartbeat }
        if updateOk then
          some (st2, .ok (if params.can_accept_task then fill m.id else none))
        else
          some (st2, .error .internalError)
      | _, _ => none

/-- Events posted to the query-stage event loop (only the variant the claims
need). -/
inductive QueryStageSchedulerEvent : Type
  | taskUpdating : String → List TaskStatus → QueryStageSchedulerEvent
deriving DecidableEq

/-- `SchedulerServer::update_task_status` (scheduler_server/mod.rs): status
updates from an executor the manager classifies as dead are logged and dropped
with `Ok(())` before the event loop is touched; otherwise a `TaskUpdating`
event is posted (`senderOk` abstracts whether the event loop has started).
Returns the list of events actually posted. -/
def update_task_status (is_dead_executor : String → Bool) (senderOk : Bool)
    (executor_id : String) (tasks_status : List TaskStatus) :
    Except StorageErr (List QueryStageSchedulerEvent) :=
  if is_dead_executor executor_id then
    .ok []
  else if senderOk then
    .ok [.taskUpdating executor_id tasks_status]
  else
    .error .eventLoopError

theorem storeGet_storePut {κ α : Type} [DecidableEq κ]
    (s : List (κ × α)) (k j : κ) (v : α) :
    storeGet (storePut s k v) j = if j = k then some v else storeGet s j := by
  induction s with
  | nil =>
    by_cases h : j = k
    · simp [storePut, storeGet, h]
    · have h2 : ¬ k = j := fun hc => h hc.symm
      simp [storePut, storeGet, h, h2]
  | cons p rest ih =>
    by_cases hj : j = k
    · subst hj
      by_cases hpk : p.1 = j
      · simp [storePut, storeGet, hpk]
      · simp [storePut, storeGet, hpk, ih]
    · by_cases hpk : p.1 = k
      · have hkj : ¬ k = j := fun hc => hj hc.symm
        have hpj : ¬ p.1 = j := fun hc => hj (hc.symm.trans hpk)
        simp [storePut, storeGet, hpk, hkj, hpj, hj]
      · by_cases hpj : p.1 = j
        · simp [storePut, storeGet, hpk, hpj, hj]
        · simp [storePut, storeGet, hpk, hpj, hj, ih]

theorem storeGet_eraseKey {κ α : Type} [DecidableEq κ]
    (s : List (κ × α)) (k j : κ) :
    storeGet (eraseKey s k) j = if j = k then none else storeGet s j := by
  induction s with
  | nil => simp [eraseKey, storeGet]
  | cons p rest ih =>
    by_cases hj : j = k
    · subst hj
      by_cases hpk : p.1 = j
      · simp [eraseKey, storeGet, hpk, ih]
      · simp [eraseKey, storeGet, hpk, ih]
    · by_cases hpk : p.1 = k
      · have hpj : ¬ p.1 = j := fun hc => hj (hc.symm.trans hpk)
        have hkj : ¬ k = j := fun hc => hj hc.symm
        simp [eraseKey, storeGet, hpk, hpj, hj, hkj, ih]
      · by_cases hpj : p.1 = j
        · simp [eraseKey, storeGet, hpk, hpj, hj]
        · simp [eraseKey, storeGet, hpk, hpj, hj, ih]

theorem storeGet_append {κ α : Type} [DecidableEq κ]
    (s t : List (κ × α)) (k : κ) :
    storeGet (s ++ t) k =
      match storeGet s k with
      | some v => some v
      | none => storeGet t k := by
  induction s with
  | nil => simp [storeGet]
  | cons p rest ih =>
    by_cases hp : p.1 = k <;> simp [storeGet, hp, ih]

theorem storeGet_eq_none_iff {κ α : Type} [DecidableEq κ]
    (s : List (κ × α)) (k : κ) :
    storeGet s k = none ↔ k ∉ s.map Prod.fst := by
  induction s with
  | nil => simp [storeGet]
  | cons p rest ih =>
    by_cases hp : p.1 = k
    · simp only [storeGet, if_pos hp, List.map_cons, List.mem_cons]
      constructor
      · intro h
        exact absurd h (by simp)
      · intro h
        exact absurd (Or.inl hp.symm) h
    · simp only [storeGet, if_neg hp, List.map_cons, List.mem_cons, ih]
      constructor
      · intro h hmem
        rcases hmem with h1 | h1
        · exact hp h1.symm
        · exact h h1
      · intro h hmem
        exact h (Or.inr hmem)

theorem storeGet_of_mem_nodup {κ α : Type} [DecidableEq κ]
    (s : List (κ × α)) (p : κ × α) (hnd : (s.map Prod.fst).Nodup) (hmem : p ∈ s) :
    storeGet s p.1 = some p.2 := by
  induction s with
  | nil => cases hmem
  | cons q rest ih =>
    rw [List.map_cons, List.nodup_cons] at hnd
    rcases List.mem_cons.mp hmem with h | h
    · subst h
      simp [storeGet]
    · have hq : ¬ q.1 = p.1 := by
        intro hcontra
        exact hnd.1 (hcontra.symm ▸ List.mem_map_of_mem Prod.fst h)
      simp only [storeGet, if_neg hq]
      exact ih hnd.2 h

theorem storePut_keys_of_mem {κ α : Type} [DecidableEq κ]
    (s : List (κ × α)) (k : κ) (v : α) (hmem : k ∈ s.map Prod.fst) :
    (storePut s k v).map Prod.fst = s.map Prod.fst := by
  induction s with
  | nil => simp at hmem
  | cons p rest ih =>
    rw [List.map_cons] at hmem
    by_cases hp : p.1 = k
    · simp [storePut, hp]
    · have hk : k ∈ rest.map Prod.fst := by
        rcases List.mem_cons.mp hmem with h | h
        · exact absurd h.symm hp
        · exact h
      simp [storePut, hp, ih hk]

theorem applyTxn_storeGet {κ α : Type} [DecidableEq κ]
    (ops store : List (κ × α)) (hnd : (ops.map Prod.fst).Nodup) (k : κ) :
    storeGet (applyTxn store ops) k =
      match storeGet ops k with
      | some v => some v
      | none => storeGet store k := by
  induction ops generalizing store with
  | nil => simp [applyTxn, storeGet]
  | cons p rest ih =>
    rw [List.map_cons, List.nodup_cons] at hnd
    have hstep : applyTxn store (p :: rest) = applyTxn (storePut store p.1 p.2) rest := by
      simp [applyTxn]
    rw [hstep, ih (storePut store p.1 p.2) hnd.2]
    by_cases hk : p.1 = k
    · have hkrest : storeGet rest k = none := by
        rw [storeGet_eq_none_iff]
        intro hmem
        exact hnd.1 (hk.symm ▸ hmem)
      have h1 : storeGet (p :: rest) k = some p.2 := by
        simp [storeGet, hk]
      have h2 : storeGet (storePut store p.1 p.2) k = some p.2 := by
        rw [storeGet_storePut]
        simp [hk.symm]
      simp [hkrest, h1, h2]
    · have hkp : ¬ k = p.1 := fun h => hk h.symm
      have h1 : storeGet (p :: rest) k = storeGet rest k := by
        simp [storeGet, hk]
      have h2 : storeGet (storePut store p.1 p.2) k = storeGet store k := by
        rw [storeGet_storePut]
        simp [hkp]
      rw [h1]
      cases hrk : storeGet rest k <;> simp [hrk, h2]

theorem mem_of_storeGet {κ α : Type} [DecidableEq κ]
    (s : List (κ × α)) (k : κ) (v : α) (h : storeGet s k = some v) : (k, v) ∈ s := by
  induction s with
  | nil => simp [storeGet] at h
  | cons p rest ih =>
    by_cases hp : p.1 = k
    · rw [storeGet, if_pos hp] at h
      have hv : p.2 = v := Option.some.inj h
      have : (k, v) = p := by
        obtain ⟨p1, p2⟩ := p
        simp only at hp hv
        rw [hp, hv]
      rw [this]
      exact List.mem_cons_self p rest
    · rw [storeGet, if_neg hp] at h
      exact List.mem_cons_of_mem p (ih h)

theorem reservation_count_cons (r : ExecutorReservation)
    (rest : List ExecutorReservation) (k : String) :
    reservation_count (r :: rest) k =
      reservation_count rest k + (if r.executor_id = k then 1 else 0) := by
  simp [reservation_count, List.countP_cons]

theorem sumAvail_cons (store : SlotStore) (executor_id : String) (ids : List String) :
    sumAvail store (executor_id :: ids) = availD store executor_id + sumAvail store ids := by
  simp [sumAvail]

theorem sumAvail_append (store : SlotStore) (ids1 ids2 : List String) :
    sumAvail store (ids1 ++ ids2) = sumAvail store ids1 + sumAvail store ids2 := by
  simp [sumAvail]

/-- C10: `SchedulerServer::update_task_status` silently drops (returning `Ok`
without posting any `TaskUpdating` event to the query-stage event loop) every
status update coming from an executor that the executor manager classifies as
dead, regardless of the reported task statuses. -/
theorem update_task_status_drops_dead_executor
    (is_dead_executor : String → Bool) (senderOk : Bool) (executor_id : String)
    (tasks_status : List TaskStatus)
    (hdead : is_dead_executor executor_id = true) :
    update_task_status is_dead_executor senderOk executor_id tasks_status =
      .ok [] := by
  simp [update_task_status, hdead]

theorem update_task_status_drops_dead_executor_witness :
    update_task_status (fun _ => true) true "executor-1" [{ task_id := 3 }] = .ok [] :=
  update_task_status_drops_dead_executor (fun _ => true) true "executor-1"
    [{ task_id := 3 }] rfl

/-- C6: `Executor::cancel_task` returns `true` exactly when an abort handle for
`(job_id, stage_id, partition)` is currently registered, in which case that
handle is the one aborted and it is removed from the map; otherwise it returns
`false` and leaves the map unchanged. Registration by `execute_shuffle_write`
makes the handle visible and completion removes it. -/
theorem cancel_task_true_iff_registered
    (handles : AbortHandles) (job_id : String) (stage_id partition : Nat) :
    ((cancel_task handles job_id stage_id partition).1 = true ↔
      (storeGet handles (job_id, stage_id, partition)).isSome = true) ∧
    ((cancel_task handles job_id stage_id partition).1 = false ↔
      storeGet handles (job_id, stage_id, partition) = none) ∧
    (∀ h, storeGet handles (job_id, stage_id, partition) = some h →
      (cancel_task handles job_id stage_id partition).2.2 = some h ∧
      storeGet (cancel_task handles job_id stage_id partition).2.1
        (job_id, stage_id, partition) = none) ∧
    (storeGet handles (job_id, stage_id, partition) = none →
      (cancel_task handles job_id stage_id partition).2.1 = handles) ∧
    (∀ key handle, storeGet (register_abort_handle handles key handle) key = some handle) ∧
    (∀ key, storeGet (finish_shuffle_write handles key) key = none) := by
  refine ⟨?_, ?_, ?_, ?_, ?_, ?_⟩
  · cases hg : storeGet handles (job_id, stage_id, partition) <;>
      simp [cancel_task, hg]
  · cases hg : storeGet handles (job_id, stage_id, partition) <;>
      simp [cancel_task, hg]
  · intro h hg
    simp [cancel_task, hg, storeGet_eraseKey]
  · intro hg
    simp [cancel_task, hg]
  · intro key handle
    simp [register_abort_handle, storeGet_storePut]
  · intro key
    simp [finish_shuffle_write, storeGet_eraseKey]

theorem cancel_task_true_iff_registered_witness :
    (cancel_task [(("job-1", 1, 0), 7)] "job-1" 1 0).1 = true ∧
    (cancel_task [(("job-1", 1, 0), 7)] "job-1" 1 0).2.2 = some 7 ∧
    storeGet (cancel_task [(("job-1", 1, 0), 7)] "job-1" 1 0).2.1 ("job-1", 1, 0) = none ∧
    (cancel_task [] "job-1" 1 0).1 = false := by
  have t1 := cancel_task_true_iff_registered [(("job-1", 1, 0), 7)] "job-1" 1 0
  have t2 := cancel_task_true_iff_registered [] "job-1" 1 0
  refine ⟨t1.1.mpr (by decide), (t1.2.2.1 7 rfl).1, (t1.2.2.1 7 rfl).2, t2.2.1.mpr rfl⟩

/-- C4 counterexample: with a slot specification whose `available_task_slots`
(2) differs from `total_task_slots` (4), `register_executor` with
`reserve = false` stores the ledger with `available = 2`, not `available =
total = 4`, and with `reserve = true` it returns 2 reservations, not `total =
4` — `register_executor` stores and counts the specification as passed. -/
theorem register_executor_counterexample :
    (storeGet (register_executor [] "executor-1"
        { executor_id := "executor-1", total_task_slots := 4, available_task_slots := 2 }
        false).2 "executor-1").map ExecutorData.available_task_slots = some 2 ∧
    (register_executor [] "executor-1"
        { executor_id := "executor-1", total_task_slots := 4, available_task_slots := 2 }
        true).1.length = 2 ∧
    (2 : Nat) ≠ 4 :=
  ⟨rfl, rfl, by decide⟩

/-- C4 (amended): `register_executor(metadata, spec, false)` stores the slot
ledger exactly as passed (hence `available = total` whenever the caller passes
a full ledger, as the grpc registration handler does) and returns no
reservations; `register_executor(metadata, spec, true)` stores the ledger with
`available = 0` and returns exactly `spec.available_task_slots` free
reservations, each bound to the registered executor id. Other executors'
ledgers are untouched. -/
theorem register_executor_ledger_and_reservations
    (store : SlotStore) (executor_id : String) (specification : ExecutorData) :
    (register_executor store executor_id specification false).1 = [] ∧
    storeGet (register_executor store executor_id specification false).2 executor_id =
      some specification ∧
    (∀ k, k ≠ executor_id →
      storeGet (register_executor store executor_id specification false).2 k =
        storeGet store k) ∧
    (register_executor store executor_id specification true).1.length =
      specification.available_task_slots ∧
    (∀ r ∈ (register_executor store executor_id specification true).1,
      r = ExecutorReservation.new_free executor_id) ∧
    storeGet (register_executor store executor_id specification true).2 executor_id =
      some { specification with available_task_slots := 0 } ∧
    (∀ k, k ≠ executor_id →
      storeGet (register_executor store executor_id specification true).2 k =
        storeGet store k) := by
  refine ⟨rfl, ?_, ?_, ?_, ?_, ?_, ?_⟩
  · simp [register_executor, storeGet_storePut]
  · intro k hk
    simp [register_executor, storeGet_storePut, hk]
  · simp [register_executor]
  · intro r hr
    exact List.eq_of_mem_replicate (by simpa [register_executor] using hr)
  · simp [register_executor, storeGet_storePut]
  · intro k hk
    simp [register_executor, storeGet_storePut, hk]

theorem register_executor_ledger_and_reservations_witness :
    (register_executor [] "executor-1"
        { executor_id := "executor-1", total_task_slots := 4, available_task_slots := 4 }
        true).1.length = 4 ∧
    storeGet (register_executor [] "executor-1"
        { executor_id := "executor-1", total_task_slots := 4, available_task_slots := 4 }
        true).2 "executor-2" = none := by
  have t := register_executor_ledger_and_reservations [] "executor-1"
    { executor_id := "executor-1", total_task_slots := 4, available_task_slots := 4 }
  exact ⟨t.2.2.2.1, (t.2.2.2.2.2.2 "executor-2" (by decide)).trans rfl⟩

/-- C5 counterexample: the heartbeat cache is updated by unconditional insert,
so applying a save with timestamp 10 and then a watch `Put` with timestamp 5
for the same executor makes the cached timestamp regress from 10 to 5. -/
theorem heartbeat_cache_regression_counterexample :
    (storeGet (apply_heartbeat_events []
        [HeartbeatEvent.save
          { executor_id := "executor-1", timestamp := 10, hbState := none }])
        "executor-1").map ExecutorHeartbeat.timestamp = some 10 ∧
    (storeGet (apply_heartbeat_events []
        [HeartbeatEvent.save
          { executor_id := "executor-1", timestamp := 10, hbState := none },
         HeartbeatEvent.watchPut
          { executor_id := "executor-1", timestamp := 5, hbState := none }])
        "executor-1").map ExecutorHeartbeat.timestamp = some 5 ∧
    (5 : Nat) < 10 :=
  ⟨rfl, rfl, by decide⟩

/-- C5 (amended): the in-memory heartbeat cache is last-write-wins — after any
sequence of `save_executor_heartbeat` calls and watch `Put` events, the cached
entry for an executor is exactly the most recently applied heartbeat for it
(or the initial cached entry when none was applied). The timestamp is
therefore monotone only when the applied heartbeats arrive in nondecreasing
timestamp order; an out-of-order event regresses the cache. -/
theorem heartbeat_cache_last_write_wins
    (cache : HeartbeatCache) (events : List HeartbeatEvent) (executor_id : String) :
    storeGet (apply_heartbeat_events cache events) executor_id =
      events.foldl (fun acc ev =>
        if ev.heartbeat.executor_id = executor_id then some ev.heartbeat else acc)
        (storeGet cache executor_id) := by
  induction events generalizing cache with
  | nil => rfl
  | cons ev rest ih =>
    have hstep : apply_heartbeat_events cache (ev :: rest) =
        apply_heartbeat_events (apply_heartbeat cache ev.heartbeat) rest := rfl
    have hinit : storeGet (apply_heartbeat cache ev.heartbeat) executor_id =
        (if ev.heartbeat.executor_id = executor_id then some ev.heartbeat
          else storeGet cache executor_id) := by
      rw [apply_heartbeat, storeGet_storePut]
      by_cases h : ev.heartbeat.executor_id = executor_id
      · simp [h]
      · have h2 : ¬ executor_id = ev.heartbeat.executor_id := fun hc => h hc.symm
        simp [h, h2]
    rw [hstep, ih, hinit, List.foldl_cons]

/-- C8 counterexample: with the one-minute variant at `now = 100`, an executor
whose last heartbeat is at timestamp 40 — exactly 60 seconds old, hence
"at most 60 seconds old" — is NOT returned: the code keeps an executor only
when its timestamp is strictly greater than `now - 60`. -/
theorem get_alive_executors_boundary_counterexample :
    get_alive_executors_within_one_minute
      [("executor-1", { executor_id := "executor-1", timestamp := 40, hbState := none })]
      100 = [] ∧
    (100 : Nat) - 40 ≤ 60 :=
  ⟨rfl, by decide⟩

/-- C8 (amended): `get_alive_executors(threshold)` returns exactly the ids
whose cached heartbeat timestamp is strictly greater than the threshold, and
the one-minute variant uses `threshold = now - 60` (saturating at 0): an
executor is alive iff its last heartbeat is strictly newer than 60 seconds
before now (strictly less than 60 seconds old), not "at most" 60 seconds. -/
theorem get_alive_executors_strict_window
    (cache : HeartbeatCache) (threshold now : Nat) (executor_id : String)
    (hnd : (cache.map Prod.fst).Nodup) :
    (executor_id ∈ get_alive_executors cache threshold ↔
      ∃ hb, storeGet cache executor_id = some hb ∧ threshold < hb.timestamp) ∧
    (executor_id ∈ get_alive_executors_within_one_minute cache now ↔
      ∃ hb, storeGet cache executor_id = some hb ∧ now - 60 < hb.timestamp) := by
  have hmain : ∀ th : Nat, executor_id ∈ get_alive_executors cache th ↔
      ∃ hb, storeGet cache executor_id = some hb ∧ th < hb.timestamp := by
    intro th
    constructor
    · intro hmem
      rw [get_alive_executors, List.mem_filterMap] at hmem
      obtain ⟨p, hp, hf⟩ := hmem
      by_cases hts : th < p.2.timestamp
      · rw [if_pos hts] at hf
        have hid : p.1 = executor_id := Option.some.inj hf
        refine ⟨p.2, ?_, hts⟩
        rw [← hid]
        exact storeGet_of_mem_nodup cache p hnd hp
      · rw [if_neg hts] at hf
        cases hf
    · rintro ⟨hb, hget, hts⟩
      rw [get_alive_executors, List.mem_filterMap]
      exact ⟨(executor_id, hb), mem_of_storeGet cache executor_id hb hget,
        by rw [if_pos hts]⟩
  exact ⟨hmain threshold, hmain (now - 60)⟩

theorem get_alive_executors_strict_window_witness :
    "executor-1" ∈ get_alive_executors
      [("executor-1", { executor_id := "executor-1", timestamp := 100, hbState := none })]
      50 :=
  ((get_alive_executors_strict_window
      [("executor-1", { executor_id := "executor-1", timestamp := 100, hbState := none })]
      50 0 "executor-1" (by decide)).1).mpr
    ⟨{ executor_id := "executor-1", timestamp := 100, hbState := none }, rfl, by decide⟩

/-- C3 counterexample: one executor with 2 free slots (total free `S = 2`) and
`n = 2` — a single round-robin pass returns 1 reservation, not
`min(n, S) = 2`: the source's `reserve_slots_round_robin` makes one pass over
the iterator and stops when it is exhausted, it never starts another pass. -/
theorem reserve_slots_round_robin_counterexample :
    (reserve_slots_round_robin [{ executor_id := "executor-1", slots := 2 }] 2).1.length
      = 1 ∧
    (([{ executor_id := "executor-1", slots := 2 }] : List AvailableTaskSlots).map
      AvailableTaskSlots.slots).sum = 2 ∧
    (1 : Nat) ≠ min 2 2 :=
  ⟨rfl, rfl, by decide⟩

/-- C3 (amended): round-robin reservation is a single pass taking at most one
slot per executor: it returns exactly `min n p` reservations where `p` is the
number of executors with at least one free slot, every executor's slot count
decreases by at most one (never below zero and only when it had a free slot),
and every reservation is a free reservation naming one of the executors. -/
theorem reserve_slots_round_robin_single_pass
    (slots : List AvailableTaskSlots) (n : Nat) :
    (reserve_slots_round_robin slots n).1.length =
      min n (slots.countP (fun e => 0 < e.slots)) ∧
    List.Forall₂ (fun (a b : AvailableTaskSlots) =>
        b.executor_id = a.executor_id ∧ a.slots - 1 ≤ b.slots ∧ b.slots ≤ a.slots)
      slots (reserve_slots_round_robin slots n).2 ∧
    (∀ r ∈ (reserve_slots_round_robin slots n).1,
      r.job_id = none ∧ r.executor_id ∈ slots.map AvailableTaskSlots.executor_id) := by
  induction slots generalizing n with
  | nil =>
    refine ⟨by simp [reserve_slots_round_robin], ?_, by simp [reserve_slots_round_robin]⟩
    rw [reserve_slots_round_robin]
    exact List.Forall₂.nil
  | cons e rest ih =>
    by_cases hn : n = 0
    · subst hn
      refine ⟨by simp [reserve_slots_round_robin], ?_,
        by simp [reserve_slots_round_robin]⟩
      rw [reserve_slots_round_robin]
      simp only [if_pos rfl]
      exact List.Forall₂.cons ⟨rfl, by omega, by omega⟩
        ((List.forall₂_same).mpr (fun a _ => ⟨rfl, by omega, by omega⟩))
    · by_cases he : 0 < e.slots
      · obtain ⟨ih1, ih2, ih3⟩ := ih (n - 1)
        have hfst : (reserve_slots_round_robin (e :: rest) n).1 =
            ExecutorReservation.new_free e.executor_id ::
              (reserve_slots_round_robin rest (n - 1)).1 := by
          rw [reserve_slots_round_robin]
          simp [hn, he]
        have hsnd : (reserve_slots_round_robin (e :: rest) n).2 =
            { e with slots := e.slots - 1 } ::
              (reserve_slots_round_robin rest (n - 1)).2 := by
          rw [reserve_slots_round_robin]
          simp [hn, he]
        refine ⟨?_, ?_, ?_⟩
        · rw [hfst, List.length_cons, ih1, List.countP_cons]
          simp only [he]
          simp
          omega
        · rw [hsnd]
          exact List.Forall₂.cons ⟨rfl, Nat.le_refl _, Nat.sub_le _ _⟩ ih2
        · rw [hfst]
          intro r hr
          rcases List.mem_cons.mp hr with h | h
          · rw [h]
            exact ⟨rfl, by simp [ExecutorReservation.new_free]⟩
          · obtain ⟨h1, h2⟩ := ih3 r h
            exact ⟨h1, by simp [h2]⟩
      · have he0 : e.slots = 0 := by omega
        obtain ⟨ih1, ih2, ih3⟩ := ih n
        have hfst : (reserve_slots_round_robin (e :: rest) n).1 =
            (reserve_slots_round_robin rest n).1 := by
          rw [reserve_slots_round_robin]
          simp [hn, he]
        have hsnd : (reserve_slots_round_robin (e :: rest) n).2 =
            e :: (reserve_slots_round_robin rest n).2 := by
          rw [reserve_slots_round_robin]
          simp [hn, he]
        refine ⟨?_, ?_, ?_⟩
        · rw [hfst, ih1, List.countP_cons]
          simp [he0]
        · rw [hsnd]
          exact List.Forall₂.cons ⟨rfl, by omega, by omega⟩ ih2
        · rw [hfst]
          intro r hr
          obtain ⟨h1, h2⟩ := ih3 r hr
          exact ⟨h1, by simp [h2]⟩

/-- C9 counterexample: a push-staged scheduler receiving a request with no
executor metadata answers `failed_precondition`, not `invalid_argument` — the
policy check runs first, so "invalid-argument whenever the request carries no
executor metadata" fails on that overlap. -/
theorem poll_work_push_no_metadata_counterexample :
    poll_work .pushStaged (fun _ => none) true
      { executors := [], heartbeats := [] } none 0
      { metadata := none, can_accept_task := false, task_status := [] } =
      some ({ executors := [], heartbeats := [] },
        .error .failedPrecondition) ∧
    WireCode.failedPrecondition ≠ WireCode.invalidArgument :=
  ⟨rfl, by decide⟩

/-- C9 (amended): `poll_work` returns a failed-precondition wire error whenever
the scheduling policy is push-staged (regardless of the request), and — when
the policy is not push-staged — an invalid-argument wire error whenever the
request carries no executor metadata; in both cases no task is assigned (the
result is an error, not a task) and no executor state is persisted (the
returned state is the input state). -/
theorem poll_work_error_paths
    (policy : TaskSchedulingPolicy) (fill : String → Option Nat) (updateOk : Bool)
    (st : SchedulerPersistedState) (remote_addr : Option String) (now : Nat)
    (params : PollWorkParams) :
    (policy = .pushStaged →
      poll_work policy fill updateOk st remote_addr now params =
        some (st, .error .failedPrecondition)) ∧
    (policy ≠ .pushStaged → params.metadata = none →
      poll_work policy fill updateOk st remote_addr now params =
        some (st, .error .invalidArgument)) := by
  constructor
  · intro hp
    simp [poll_work, hp]
  · intro hp hm
    simp [poll_work, hp, hm]

theorem poll_work_error_paths_witness :
    poll_work .pushStaged (fun _ => none) true { executors := [], heartbeats := [] }
      none 0
      { metadata := some { id := "executor-1", optional_host := none, port := 0, grpc_port := 0, specification := none },
        can_accept_task := true, task_status := [] } =
      some ({ executors := [], heartbeats := [] }, .error .failedPrecondition) ∧
    poll_work .pullStaged (fun _ => none) true { executors := [], heartbeats := [] }
      none 0 { metadata := none, can_accept_task := true, task_status := [] } =
      some ({ executors := [], heartbeats := [] }, .error .invalidArgument) := by
  constructor
  · exact (poll_work_error_paths .pushStaged (fun _ => none) true
      { executors := [], heartbeats := [] } none 0
      { metadata := some { id := "executor-1", optional_host := none, port := 0, grpc_port := 0, specification := none },
        can_accept_task := true, task_status := [] }).1 rfl
  · exact (poll_work_error_paths .pullStaged (fun _ => none) true
      { executors := [], heartbeats := [] } none 0
      { metadata := none, can_accept_task := true, task_status := [] }).2
      (by decide) rfl

/-- C7 counterexample: with one alive executor, `reserve_slots(0)` still issues
a `put_txn` whose op list is non-empty — it rewrites the first alive
executor's (unchanged) ledger before the `desired == 0` break fires, so
"no put/transaction is issued" fails. -/
theorem reserve_slots_zero_counterexample :
    reserveLoop
      [("executor-1",
        { executor_id := "executor-1", total_task_slots := 4, available_task_slots := 4 })]
      ["executor-1"] 0 =
      .ok ([],
        [("executor-1",
          { executor_id := "executor-1", total_task_slots := 4,
            available_task_slots := 4 })]) ∧
    ([("executor-1",
      ({ executor_id := "executor-1", total_task_slots := 4, available_task_slots := 4 }
        : ExecutorData))] : List (String × ExecutorData)) ≠ [] :=
  ⟨rfl, by decide⟩

/-- C7 (amended): `reserve_slots(0)` — when it does not fail on a missing
ledger — returns an empty reservation vector and leaves every stored ledger
unchanged; it does however issue a `put_txn` whose op list holds at most one
op, a rewrite of the first alive executor's unchanged ledger. -/
theorem reserve_slots_zero_frame
    (store : SlotStore) (alive : List String) (res : List ExecutorReservation)
    (ops : List (String × ExecutorData))
    (hok : reserveLoop store alive 0 = .ok (res, ops)) :
    res = [] ∧ ops.length ≤ 1 ∧
    (∀ p ∈ ops, storeGet store p.1 = some p.2) ∧
    (∀ k, storeGet (applyTxn store ops) k = storeGet store k) ∧
    reserve_slots store alive 0 = .ok ([], applyTxn store ops) := by
  have hok0 := hok
  cases alive with
  | nil =>
    rw [reserveLoop] at hok
    simp only [Except.ok.injEq, Prod.mk.injEq] at hok
    obtain ⟨h1, h2⟩ := hok
    subst h1
    subst h2
    refine ⟨rfl, by simp, by simp, ?_, ?_⟩
    · intro k
      rfl
    · rw [reserve_slots, hok0]
  | cons executor_id rest =>
    rw [reserveLoop] at hok
    cases hget : storeGet store executor_id with
    | none =>
      rw [hget] at hok
      cases hok
    | some data =>
      obtain ⟨deid, dtot, davail⟩ := data
      rw [hget] at hok
      simp only [Nat.min_zero, Nat.sub_zero, Nat.zero_sub, List.replicate_zero,
        reduceIte, Except.ok.injEq, Prod.mk.injEq] at hok
      obtain ⟨h1, h2⟩ := hok
      subst h1
      subst h2
      refine ⟨rfl, by simp, ?_, ?_, ?_⟩
      · intro p hp
        rw [List.mem_singleton] at hp
        subst hp
        exact hget
      · intro k
        have happ : applyTxn store
            [(executor_id, ExecutorData.mk deid dtot davail)] =
            storePut store executor_id (ExecutorData.mk deid dtot davail) := by
          simp [applyTxn]
        rw [happ, storeGet_storePut]
        by_cases hk : k = executor_id
        · rw [if_pos hk, hk, hget]
        · rw [if_neg hk]
      · rw [reserve_slots, hok0]

theorem reserve_slots_zero_frame_witness :
    reserve_slots
      [("executor-1",
        { executor_id := "executor-1", total_task_slots := 4, available_task_slots := 4 })]
      ["executor-1"] 0 =
      .ok ([], applyTxn
        ([("executor-1",
          { executor_id := "executor-1", total_task_slots := 4, available_task_slots := 4 })] : SlotStore)
        [("executor-1",
          { executor_id := "executor-1", total_task_slots := 4,
            available_task_slots := 4 })]) ∧
    storeGet (applyTxn
        ([("executor-1",
          { executor_id := "executor-1", total_task_slots := 4, available_task_slots := 4 })] : SlotStore)
        [("executor-1",
          { executor_id := "executor-1", total_task_slots := 4,
            available_task_slots := 4 })]) "executor-1" =
      storeGet
        [("executor-1",
          { executor_id := "executor-1", total_task_slots := 4, available_task_slots := 4 })]
        "executor-1" := by
  have t := reserve_slots_zero_frame
    [("executor-1",
      { executor_id := "executor-1", total_task_slots := 4, available_task_slots := 4 })]
    ["executor-1"] []
    [("executor-1",
      { executor_id := "executor-1", total_task_slots := 4, available_task_slots := 4 })]
    rfl
  exact ⟨t.2.2.2.2, t.2.2.2.1 "executor-1"⟩

theorem cancelLoop_storeGet (store : SlotStore) (rs : List ExecutorReservation) :
    ∀ (acc ops : List (String × ExecutorData)),
      cancelLoop store rs acc = .ok ops →
      ∀ k, storeGet ops k =
        match storeGet acc k with
        | some v => some { v with available_task_slots :=
            v.available_task_slots + reservation_count rs k }
        | none =>
          match storeGet store k with
          | some d =>
            if reservation_count rs k = 0 then none
            else some { d with available_task_slots :=
              d.available_task_slots + reservation_count rs k }
          | none => none := by
  induction rs with
  | nil =>
    intro acc ops hok k
    rw [cancelLoop] at hok
    obtain rfl : acc = ops := Except.ok.inj hok
    have hcnt : reservation_count [] k = 0 := rfl
    rw [hcnt]
    cases hacc : storeGet acc k with
    | some v =>
      obtain ⟨ve, vt, va⟩ := v
      simp
    | none =>
      cases hstore : storeGet store k with
      | some d => simp
      | none => simp
  | cons r rest ih =>
    intro acc ops hok k
    rw [cancelLoop] at hok
    cases hacc : storeGet acc r.executor_id with
    | some data =>
      rw [hacc] at hok
      have hrec := ih _ ops hok k
      rw [hrec, storeGet_storePut]
      by_cases hk : k = r.executor_id
      · subst hk
        rw [if_pos rfl, hacc, reservation_count_cons, if_pos rfl]
        obtain ⟨de, dt, da⟩ := data
        simp
        omega
      · rw [if_neg hk]
        have hcnt : reservation_count (r :: rest) k = reservation_count rest k := by
          rw [reservation_count_cons, if_neg (fun hc => hk hc.symm), Nat.add_zero]
        rw [hcnt]
    | none =>
      rw [hacc] at hok
      cases hstore : storeGet store r.executor_id with
      | none =>
        rw [hstore] at hok
        cases hok
      | some data =>
        rw [hstore] at hok
        have hrec := ih _ ops hok k
        rw [hrec, storeGet_append]
        by_cases hk : k = r.executor_id
        · subst hk
          rw [hacc, hstore, reservation_count_cons, if_pos rfl]
          obtain ⟨de, dt, da⟩ := data
          simp [storeGet]
          omega
        · have hne : ¬ r.executor_id = k := fun hc => hk hc.symm
          have hsingle : storeGet
              [(r.executor_id,
                { data with available_task_slots := data.available_task_slots + 1 })]
              k = none := by
            simp [storeGet, hne]
          have hcnt : reservation_count (r :: rest) k = reservation_count rest k := by
            rw [reservation_count_cons, if_neg (fun hc => hk hc.symm), Nat.add_zero]
          rw [hsingle, hcnt]
          cases hacck : storeGet acc k with
          | some v => simp
          | none => cases hstorek : storeGet store k <;> simp

theorem cancelLoop_keys_nodup (store : SlotStore) (rs : List ExecutorReservation) :
    ∀ (acc ops : List (String × ExecutorData)),
      (acc.map Prod.fst).Nodup →
      cancelLoop store rs acc = .ok ops →
      (ops.map Prod.fst).Nodup := by
  induction rs with
  | nil =>
    intro acc ops hnd hok
    rw [cancelLoop] at hok
    obtain rfl : acc = ops := Except.ok.inj hok
    exact hnd
  | cons r rest ih =>
    intro acc ops hnd hok
    rw [cancelLoop] at hok
    cases hacc : storeGet acc r.executor_id with
    | some data =>
      rw [hacc] at hok
      have hmem : r.executor_id ∈ acc.map Prod.fst := by
        by_contra hcontra
        rw [(storeGet_eq_none_iff acc r.executor_id).mpr hcontra] at hacc
        cases hacc
      refine ih _ ops ?_ hok
      rw [storePut_keys_of_mem _ _ _ hmem]
      exact hnd
    | none =>
      rw [hacc] at hok
      cases hstore : storeGet store r.executor_id with
      | none =>
        rw [hstore] at hok
        cases hok
      | some data =>
        rw [hstore] at hok
        refine ih _ ops ?_ hok
        have hnotin : r.executor_id ∉ acc.map Prod.fst :=
          (storeGet_eq_none_iff acc r.executor_id).mp hacc
        rw [List.map_append]
        rw [List.nodup_append]
        refine ⟨hnd, by simp, ?_⟩
        intro x hx hxmem
        simp at hxmem
        subst hxmem
        exact hnotin hx

/-- C2: `cancel_reservations(R)` is atomic. On success every executor's stored
ledger has `available_task_slots` incremented by exactly the number of its
reservations in `R` (executors not named in `R` are unchanged, since their
increment is zero), and the transaction carries exactly one coalesced write
per distinct executor named in `R`; on error the store is left untouched. -/
theorem cancel_reservations_atomic
    (store : SlotStore) (reservations : List ExecutorReservation) :
    (∀ store2, cancel_reservations store reservations = .ok store2 →
      (∀ k, storeGet store2 k = (storeGet store k).map
        (fun d => { d with available_task_slots :=
          d.available_task_slots + reservation_count reservations k })) ∧
      (∃ ops, cancelLoop store reservations [] = .ok ops ∧
        (ops.map Prod.fst).Nodup ∧
        ∀ p ∈ ops, 0 < reservation_count reservations p.1)) ∧
    (∀ e, cancel_reservations store reservations = .error e →
      cancel_reservations_run store reservations = store) := by
  constructor
  · intro store2 hok
    rw [cancel_reservations] at hok
    cases hloop : cancelLoop store reservations [] with
    | error e =>
      rw [hloop] at hok
      cases hok
    | ok ops =>
      rw [hloop] at hok
      obtain rfl : applyTxn store ops = store2 := Except.ok.inj hok
      have hnd : (ops.map Prod.fst).Nodup :=
        cancelLoop_keys_nodup store reservations [] ops (by simp) hloop
      have hchar := cancelLoop_storeGet store reservations [] ops hloop
      constructor
      · intro k
        rw [applyTxn_storeGet ops store hnd k, hchar k]
        cases hstore : storeGet store k with
        | none => simp [storeGet]
        | some d =>
          by_cases hcnt : reservation_count reservations k = 0
          · obtain ⟨de, dt, da⟩ := d
            simp [storeGet, hcnt]
          · simp [storeGet, hcnt]
      · refine ⟨ops, rfl, hnd, ?_⟩
        intro p hp
        have hget : storeGet ops p.1 = some p.2 := storeGet_of_mem_nodup ops p hnd hp
        rw [hchar p.1] at hget
        by_cases hcnt : reservation_count reservations p.1 = 0
        · rw [hcnt] at hget
          cases hstore : storeGet store p.1 with
          | none =>
            rw [hstore] at hget
            simp [storeGet] at hget
          | some d =>
            rw [hstore] at hget
            simp [storeGet] at hget
        · omega
  · intro e herr
    rw [cancel_reservations_run, herr]

theorem cancel_reservations_atomic_witness :
    storeGet (cancel_reservations_run
      [("executor-1", { executor_id := "executor-1", total_task_slots := 4, available_task_slots := 0 }),
       ("executor-2", { executor_id := "executor-2", total_task_slots := 4, available_task_slots := 1 })]
      [ExecutorReservation.new_free "executor-1", ExecutorReservation.new_free "executor-2",
       ExecutorReservation.new_free "executor-1"]) "executor-1" =
      some { executor_id := "executor-1", total_task_slots := 4, available_task_slots := 2 } := by
  have t := cancel_reservations_atomic
    [("executor-1", { executor_id := "executor-1", total_task_slots := 4, available_task_slots := 0 }),
     ("executor-2", { executor_id := "executor-2", total_task_slots := 4, available_task_slots := 1 })]
    [ExecutorReservation.new_free "executor-1", ExecutorReservation.new_free "executor-2",
     ExecutorReservation.new_free "executor-1"]
  have h := (t.1 (cancel_reservations_run
    [("executor-1", { executor_id := "executor-1", total_task_slots := 4, available_task_slots := 0 }),
     ("executor-2", { executor_id := "executor-2", total_task_slots := 4, available_task_slots := 1 })]
    [ExecutorReservation.new_free "executor-1", ExecutorReservation.new_free "executor-2",
     ExecutorReservation.new_free "executor-1"]) rfl).1 "executor-1"
  exact h.trans rfl

theorem reserveLoop_spec (store : SlotStore) (alive : List String) :
    ∀ (desired : Nat) (res : List ExecutorReservation)
      (ops : List (String × ExecutorData)),
      reserveLoop store alive desired = .ok (res, ops) →
      (∃ m, ops.map Prod.fst = alive.take m) ∧
      res.length = min desired (sumAvail store alive) ∧
      (∀ p ∈ ops, ∃ d, storeGet store p.1 = some d ∧
        p.2.executor_id = d.executor_id ∧
        p.2.total_task_slots = d.total_task_slots ∧
        p.2.available_task_slots ≤ d.available_task_slots) ∧
      ((ops.map (fun p => availD store p.1)).sum =
        (ops.map (fun p => p.2.available_task_slots)).sum + res.length) ∧
      (∀ r ∈ res, r.job_id = none ∧ ∃ p ∈ ops, p.1 = r.executor_id ∧
        p.2.available_task_slots < availD store p.1) := by
  induction alive with
  | nil =>
    intro desired res ops hok
    rw [reserveLoop] at hok
    simp only [Except.ok.injEq, Prod.mk.injEq] at hok
    obtain ⟨h1, h2⟩ := hok
    subst h1
    subst h2
    refine ⟨⟨0, rfl⟩, by simp [sumAvail], by simp, by simp, by simp⟩
  | cons executor_id rest ih =>
    intro desired res ops hok
    rw [reserveLoop] at hok
    cases hget : storeGet store executor_id with
    | none =>
      rw [hget] at hok
      cases hok
    | some data =>
      obtain ⟨de, dt, da⟩ := data
      rw [hget] at hok
      simp only at hok
      have havail : availD store executor_id = da := by
        rw [availD, hget]
      by_cases hbreak : desired - min da desired = 0
      · rw [if_pos hbreak] at hok
        simp only [Except.ok.injEq, Prod.mk.injEq] at hok
        obtain ⟨h1, h2⟩ := hok
        subst h1
        subst h2
        refine ⟨⟨1, by simp⟩, ?_, ?_, ?_, ?_⟩
        · rw [List.length_replicate, sumAvail_cons, havail]
          omega
        · intro p hp
          rw [List.mem_singleton] at hp
          subst hp
          exact ⟨ExecutorData.mk de dt da, hget, rfl, rfl, Nat.sub_le _ _⟩
        · simp only [List.map_cons, List.map_nil, List.sum_cons, List.sum_nil,
            List.length_replicate, havail]
          omega
        · intro r hr
          have hpos : 0 < min da desired := by
            rcases Nat.eq_zero_or_pos (min da desired) with h0 | hpos
            · rw [h0] at hr
              simp at hr
            · exact hpos
          have hrr := List.eq_of_mem_replicate hr
          subst hrr
          refine ⟨rfl, (executor_id, ExecutorData.mk de dt (da - min da desired)),
            List.mem_singleton_self _, rfl, ?_⟩
          rw [havail]
          simp only
          omega
      · rw [if_neg hbreak] at hok
        cases hrec : reserveLoop store rest (desired - min da desired) with
        | error e =>
          rw [hrec] at hok
          cases hok
        | ok pr =>
          obtain ⟨res2, ops2⟩ := pr
          rw [hrec] at hok
          simp only [Except.ok.injEq, Prod.mk.injEq] at hok
          obtain ⟨h1, h2⟩ := hok
          subst h1
          subst h2
          obtain ⟨⟨m, hkeys⟩, hlen, hop, hsum, hres⟩ :=
            ih (desired - min da desired) res2 ops2 hrec
          refine ⟨⟨m + 1, by simp [hkeys]⟩, ?_, ?_, ?_, ?_⟩
          · rw [List.length_append, List.length_replicate, hlen, sumAvail_cons, havail]
            omega
          · intro p hp
            rcases List.mem_cons.mp hp with h | h
            · subst h
              exact ⟨ExecutorData.mk de dt da, hget, rfl, rfl, Nat.sub_le _ _⟩
            · exact hop p h
          · simp only [List.map_cons, List.sum_cons, havail, List.length_append,
              List.length_replicate]
            omega
          · intro r hr
            rcases List.mem_append.mp hr with h | h
            · have hpos : 0 < min da desired := by
                rcases Nat.eq_zero_or_pos (min da desired) with h0 | hpos
                · rw [h0] at h
                  simp at h
                · exact hpos
              have hrr := List.eq_of_mem_replicate h
              subst hrr
              refine ⟨rfl, (executor_id, ExecutorData.mk de dt (da - min da desired)),
                List.mem_cons_self _ _, rfl, ?_⟩
              rw [havail]
              simp only
              omega
            · obtain ⟨h1, p, hp, hpe, hlt⟩ := hres r h
              exact ⟨h1, p, List.mem_cons_of_mem _ hp, hpe, hlt⟩

theorem get_alive_executors_nodup (cache : HeartbeatCache) (threshold : Nat)
    (hnd : (cache.map Prod.fst).Nodup) :
    (get_alive_executors cache threshold).Nodup := by
  induction cache with
  | nil => simp [get_alive_executors]
  | cons p rest ih =>
    rw [List.map_cons, List.nodup_cons] at hnd
    rw [get_alive_executors, List.filterMap_cons]
    by_cases hts : threshold < p.2.timestamp
    · rw [if_pos hts]
      refine List.nodup_cons.mpr ⟨?_, ih hnd.2⟩
      intro hmem
      rw [List.mem_filterMap] at hmem
      obtain ⟨q, hq, hf⟩ := hmem
      by_cases hq2 : threshold < q.2.timestamp
      · rw [if_pos hq2] at hf
        exact hnd.1 ((Option.some.inj hf) ▸ List.mem_map_of_mem Prod.fst hq)
      · rw [if_neg hq2] at hf
        cases hf
    · rw [if_neg hts]
      exact ih hnd.2

theorem reserve_slots_spec (store : SlotStore) (alive : List String) (n : Nat)
    (res : List ExecutorReservation) (store2 : SlotStore)
    (hand : alive.Nodup)
    (hok : reserve_slots store alive n = .ok (res, store2)) :
    res.length ≤ min n (sumAvail store alive) ∧
    sumAvail store2 alive + res.length = sumAvail store alive ∧
    (∀ r ∈ res, r.job_id = none ∧ r.executor_id ∈ alive ∧
      availD store2 r.executor_id < availD store r.executor_id) ∧
    (∀ k, k ∉ alive → storeGet store2 k = storeGet store k) := by
  rw [reserve_slots] at hok
  cases hloop : reserveLoop store alive n with
  | error e =>
    rw [hloop] at hok
    cases hok
  | ok pr =>
    obtain ⟨res0, ops⟩ := pr
    rw [hloop] at hok
    simp only [Except.ok.injEq, Prod.mk.injEq] at hok
    obtain ⟨h1, h2⟩ := hok
    subst h1
    subst h2
    obtain ⟨⟨m, hkeys⟩, hlen, hop, hsum, hres⟩ :=
      reserveLoop_spec store alive n res0 ops hloop
    have hopsnd : (ops.map Prod.fst).Nodup := by
      rw [hkeys]
      exact List.Nodup.sublist (List.take_sublist m alive) hand
    have hsplit : alive.take m ++ alive.drop m = alive := List.take_append_drop m alive
    have hdisj : ∀ k ∈ alive.drop m, k ∉ alive.take m := by
      have hnd2 : (alive.take m ++ alive.drop m).Nodup := by
        rw [hsplit]
        exact hand
      rw [List.nodup_append] at hnd2
      intro k hk hkt
      exact hnd2.2.2 hkt hk
    have hframe : ∀ k, k ∉ alive → storeGet (applyTxn store ops) k = storeGet store k := by
      intro k hk
      have hops0 : storeGet ops k = none := by
        rw [storeGet_eq_none_iff, hkeys]
        intro hmem
        exact hk (List.take_subset m alive hmem)
      rw [applyTxn_storeGet ops store hopsnd k, hops0]
    have hav2 : ∀ p ∈ ops, availD (applyTxn store ops) p.1 = p.2.available_task_slots := by
      intro p hp
      rw [availD, applyTxn_storeGet ops store hopsnd p.1,
        storeGet_of_mem_nodup ops p hopsnd hp]
    have hsum_take_new : sumAvail (applyTxn store ops) (alive.take m) =
        (ops.map (fun p => p.2.available_task_slots)).sum := by
      rw [sumAvail, ← hkeys, List.map_map]
      congr 1
      apply List.map_congr_left
      intro p hp
      exact hav2 p hp
    have hsum_take_old : sumAvail store (alive.take m) =
        (ops.map (fun p => availD store p.1)).sum := by
      rw [sumAvail, ← hkeys, List.map_map]
      rfl
    have hsum_drop : sumAvail (applyTxn store ops) (alive.drop m) =
        sumAvail store (alive.drop m) := by
      rw [sumAvail, sumAvail]
      congr 1
      apply List.map_congr_left
      intro k hk
      have hops0 : storeGet ops k = none := by
        rw [storeGet_eq_none_iff, hkeys]
        exact hdisj k hk
      rw [availD, availD, applyTxn_storeGet ops store hopsnd k, hops0]
    have e1 : sumAvail (applyTxn store ops) alive =
        sumAvail (applyTxn store ops) (alive.take m) +
          sumAvail (applyTxn store ops) (alive.drop m) := by
      conv_lhs => rw [← hsplit]
      rw [sumAvail_append]
    have e2 : sumAvail store alive =
        sumAvail store (alive.take m) + sumAvail store (alive.drop m) := by
      conv_lhs => rw [← hsplit]
      rw [sumAvail_append]
    refine ⟨by omega, ?_, ?_, hframe⟩
    · rw [e1, e2, hsum_take_new, hsum_drop, hsum_take_old]
      omega
    · intro r hr
      obtain ⟨hjob, p, hp, hpe, hlt⟩ := hres r hr
      have hmem : r.executor_id ∈ alive := by
        rw [← hpe]
        have hmk : p.1 ∈ ops.map Prod.fst := List.mem_map_of_mem Prod.fst hp
        rw [hkeys] at hmk
        exact List.take_subset m alive hmk
      refine ⟨hjob, hmem, ?_⟩
      rw [← hpe, hav2 p hp]
      exact hlt

/-- C1: `ExecutorManager::reserve_slots(n)`, called on the alive executors
computed from the heartbeat cache, returns `k ≤ min(n, Σ available over alive
executors)` reservations; after applying the transaction the total available
slots over the alive executors has decreased by exactly `k`; every returned
reservation is a free reservation naming an alive executor whose ledger was
strictly decremented; and only alive executors are touched — any executor not
in the alive set keeps its stored ledger byte for byte. -/
theorem manager_reserve_slots_no_over_reservation
    (cache : HeartbeatCache) (now : Nat) (store : SlotStore) (n : Nat)
    (res : List ExecutorReservation) (store2 : SlotStore)
    (hnd : (cache.map Prod.fst).Nodup)
    (hok : manager_reserve_slots cache now store n = .ok (res, store2)) :
    res.length ≤
      min n (sumAvail store (get_alive_executors_within_one_minute cache now)) ∧
    sumAvail store2 (get_alive_executors_within_one_minute cache now) + res.length =
      sumAvail store (get_alive_executors_within_one_minute cache now) ∧
    (∀ r ∈ res, r.job_id = none ∧
      r.executor_id ∈ get_alive_executors_within_one_minute cache now ∧
      availD store2 r.executor_id < availD store r.executor_id) ∧
    (∀ k, k ∉ get_alive_executors_within_one_minute cache now →
      storeGet store2 k = storeGet store k) := by
  have hand : (get_alive_executors_within_one_minute cache now).Nodup :=
    get_alive_executors_nodup cache (now - 60) hnd
  exact reserve_slots_spec store (get_alive_executors_within_one_minute cache now)
    n res store2 hand hok

theorem manager_reserve_slots_no_over_reservation_witness :
    ([ExecutorReservation.new_free "executor-1", ExecutorReservation.new_free "executor-1"]
        : List ExecutorReservation).length ≤
      min 2 (sumAvail
        [("executor-1", { executor_id := "executor-1", total_task_slots := 4, available_task_slots := 4 })]
        (get_alive_executors_within_one_minute
          [("executor-1", { executor_id := "executor-1", timestamp := 30, hbState := none })] 50)) ∧
    sumAvail
        [("executor-1", { executor_id := "executor-1", total_task_slots := 4, available_task_slots := 2 })]
        (get_alive_executors_within_one_minute
          [("executor-1", { executor_id := "executor-1", timestamp := 30, hbState := none })] 50) +
      ([ExecutorReservation.new_free "executor-1", ExecutorReservation.new_free "executor-1"]
        : List ExecutorReservation).length =
      sumAvail
        [("executor-1", { executor_id := "executor-1", total_task_slots := 4, available_task_slots := 4 })]
        (get_alive_executors_within_one_minute
          [("executor-1", { executor_id := "executor-1", timestamp := 30, hbState := none })] 50) := by
  have t := manager_reserve_slots_no_over_reservation
    [("executor-1", { executor_id := "executor-1", timestamp := 30, hbState := none })]
    50
    [("executor-1", { executor_id := "executor-1", total_task_slots := 4, available_task_slots := 4 })]
    2
    [ExecutorReservation.new_free "executor-1", ExecutorReservation.new_free "executor-1"]
    [("executor-1", { executor_id := "executor-1", total_task_slots := 4, available_task_slots := 2 })]
    (by decide) rfl
  exact ⟨t.1, t.2.1⟩

end Ballista
